import Mathlib

/-!
Verification of the DOMCHAT retrieval pipeline.

Shallow embedding of the core modules of the repository:
`core/crawler.py` (URL validation, page discovery, domain / specific-URL
crawling with sync hash diffing), `core/processor.py` (chunking, ChromaDB
collection management, similarity search), `core/doc_vector_store.py`
(document chunk upsert and search), `core/llm_local.py` and
`core/doc_analyzer.py` (bounded chat histories), `core/doc_processor.py`
(document chunking) and `core/analyzer.py` (sync guard).

Python strings are modelled as Lean `String`, Python lists as `List`,
Python dicts as association lists, and the ChromaDB client as an
association list from collection names to record lists.  External
collaborators (HTTP fetching, HTML parsing, the embedding model, the
vector index's distance ranking and the LangChain token splitter) are
modelled as explicit function parameters, so all theorems quantify over
their behaviour.
-/

namespace DomChat

/-! ### String helpers

Python string primitives (`in`, `.lower()`, `.startswith`, `.split()`,
decimal formatting) modelled directly over the character data of a
`String`, so that every definition reduces in the kernel. -/

/-- Contiguous-sublist test on character lists. -/
def isInfixList (sub : List Char) : List Char → Bool
  | [] => sub.isEmpty
  | c :: t => sub.isPrefixOf (c :: t) || isInfixList sub t

/-- Model of the Python substring test `sub in s`. -/
def strContains (s sub : String) : Bool :=
  isInfixList sub.data s.data

/-- ASCII lower-casing of one character, as Python `str.lower` acts on
the ASCII range (all URLs and keywords in the source are ASCII). -/
def lowerChar (c : Char) : Char :=
  if 'A' ≤ c ∧ c ≤ 'Z' then Char.ofNat (c.toNat + 32) else c

/-- Model of Python `s.lower()`. -/
def strLower (s : String) : String :=
  ⟨s.data.map lowerChar⟩

/-- Model of Python `s.startswith(pre)`. -/
def strStartsWith (s pre : String) : Bool :=
  pre.data.isPrefixOf s.data

/-- Tokeniser behind Python `s.split()` (no separator argument):
maximal runs of non-whitespace characters, empty tokens dropped.
`acc` holds the characters of the current token, reversed. -/
def wsTokensAux : List Char → List Char → List String
  | [], acc => if acc.isEmpty then [] else [⟨acc.reverse⟩]
  | c :: rest, acc =>
    if c.isWhitespace then
      if acc.isEmpty then wsTokensAux rest [] else ⟨acc.reverse⟩ :: wsTokensAux rest []
    else wsTokensAux rest (c :: acc)

/-- Model of Python `s.split()`. -/
def pySplitWs (s : String) : List String :=
  wsTokensAux s.data []

/-- Model of Python `' '.join(words)`. -/
def joinSpace : List String → String
  | [] => ""
  | [w] => w
  | w :: ws => w ++ " " ++ joinSpace ws

/-- Decimal digit character for `d < 10`. -/
def decDigitChar (d : Nat) : Char :=
  Char.ofNat (48 + d)

/-- Big-endian decimal digits of `n`, with explicit fuel so the
definition is structurally recursive (the fuel `n + 1` always
suffices). -/
def decCharsCore : Nat → Nat → List Char
  | 0, _ => []
  | fuel + 1, n =>
    if n < 10 then [decDigitChar n]
    else decCharsCore fuel (n / 10) ++ [decDigitChar (n % 10)]

/-- Model of Python decimal formatting `f"{n}"` of a non-negative
integer. -/
def decStr (n : Nat) : String :=
  ⟨decCharsCore (n + 1) n⟩

/-- Left fold reading a decimal character list back into a number;
used only to prove that `decStr` is injective. -/
def parseDec (cs : List Char) : Nat :=
  cs.foldl (fun a c => a * 10 + (c.toNat - 48)) 0

/-! ### Configuration (`config.py` and `core/doc_config.py`) -/

namespace Config

def CHUNK_SIZE : Nat := 1000

def CHUNK_OVERLAP : Nat := 200

def CONTEXT_CHUNKS : Nat := 5

def MAX_PAGES : Nat := 25

def MAX_CHAT_HISTORY : Nat := 20

end Config

namespace DocConfig

def DOC_CHUNK_SIZE : Nat := 300

def DOC_CHUNK_OVERLAP : Nat := 60

def DOC_CONTEXT_CHUNKS : Nat := 5

def DOC_MAX_CHAT_HISTORY : Nat := 20

end DocConfig

/-! ### URL parsing (`urllib.parse.urlparse`, as used by `is_valid_url`) -/

/-- Characters allowed in a URL scheme after the leading letter. -/
def isSchemeChar (c : Char) : Bool :=
  c.isAlpha || c.isDigit || c = '+' || c = '-' || c = '.'

/-- Split `scheme:rest` as `urllib.parse.urlparse` does: the part before
the first `:` is a scheme when it is non-empty, starts with a letter and
consists of scheme characters; otherwise there is no scheme. -/
def splitScheme (url : String) : String × String :=
  let pre := url.data.takeWhile (fun c => c ≠ ':')
  if pre.length < url.data.length ∧ pre ≠ [] ∧
      (pre.headD 'a').isAlpha = true ∧ pre.all isSchemeChar = true then
    (⟨pre⟩, ⟨url.data.drop (pre.length + 1)⟩)
  else
    ("", url)

/-- `urlparse(url).netloc`: the authority component, present only when
`//` follows the scheme, delimited by the next `/`, `?` or `#`. -/
def netloc (url : String) : String :=
  let rest := (splitScheme url).2
  if rest.data.take 2 = ['/', '/'] then
    ⟨(rest.data.drop 2).takeWhile (fun c => c ≠ '/' ∧ c ≠ '?' ∧ c ≠ '#')⟩
  else ""

/-! ### Crawler (`core/crawler.py`, class `EnhancedDomainCrawler`) -/

/-- `skip_patterns` of `EnhancedDomainCrawler.is_valid_url`. -/
def skip_patterns : List String :=
  ["login", "register", "cart", "checkout", "admin",
   "wp-admin", "wp-content", ".pdf", ".jpg", ".png", ".gif",
   "privacy", "terms", "cookie", "legal", "#", "javascript:"]

/-- `EnhancedDomainCrawler.is_valid_url`: same netloc as the base domain
and no deny-listed substring in the lower-cased URL.  (The Python
`try/except` wrapper is dead for string inputs: `urlparse` does not raise
here.) -/
def is_valid_url (url base_domain : String) : Bool :=
  netloc url == netloc base_domain &&
    !(skip_patterns.any (fun p => strContains (strLower url) p))

/-- `priority_keywords` of `EnhancedDomainCrawler.discover_pages`. -/
def priority_keywords : List String :=
  ["about", "service", "product", "solution", "team",
   "contact", "portfolio", "work", "case-study", "blog",
   "news", "career", "job", "pricing", "plan"]

/-- Whether a link contains at least one priority keyword (lower-cased,
as the Python membership test `keyword in link.lower()`). -/
def matchesKeyword (link : String) : Bool :=
  priority_keywords.any (fun kw => strContains (strLower link) kw)

/-- Inner loop of the keyword pass of `discover_pages`: for one keyword,
append every matching link not already collected. -/
def addKeywordMatches (links : List String) (acc : List String) (kw : String) : List String :=
  links.foldl
    (fun a link =>
      if strContains (strLower link) kw && !(a.contains link) then a ++ [link] else a)
    acc

/-- The keyword pass of `discover_pages`: iterate the priority keywords
in order, collecting matching links. -/
def keywordPass (links : List String) : List String :=
  priority_keywords.foldl (addKeywordMatches links) []

/-- Append the elements of `xs` not already present, in order.  This is
the second loop of `discover_pages` (over `init = prioritized`), and
with `init = []` an order-preserving model of Python's `list(set(xs))`
(the real iteration order of a Python `set` is unspecified; all
membership and cardinality facts proved below are order-independent). -/
def appendNew (init : List String) (xs : List String) : List String :=
  xs.foldl (fun acc x => if acc.contains x then acc else acc ++ [x]) init

/-- The `prioritized` list of `discover_pages`: keyword-matching links
first (grouped by keyword), then the remaining links in first-seen
order. -/
def prioritizeLinks (links : List String) : List String :=
  appendNew (keywordPass links) links

/-- `EnhancedDomainCrawler.discover_pages`.  Fetching the seed page and
resolving its anchors with `urljoin` are external effects; `links`
stands for the resolved candidate URLs found on the seed page, in
document order.  The function filters them with `is_valid_url`,
prioritizes, truncates to the page budget, prepends the seed and
deduplicates (`list(set(...))`). -/
def discover_pages (domain : String) (links : List String) : List String :=
  let valid := links.filter (fun url => is_valid_url url domain)
  let prioritized := prioritizeLinks valid
  appendNew [] (domain :: prioritized.take (Config.MAX_PAGES - 1))

/-- Outcome of `fetch_html` followed by `extract_content` for one URL,
the external effect of the per-URL body of `crawl_domain` /
`crawl_specific_urls`: the length of the fetched HTML (0 when both fetch
strategies failed), the `word_count` of the extracted content and its
`content_hash`. -/
structure FetchOutcome where
  htmlLen : Nat
  wordCount : Nat
  contentHash : String
deriving DecidableEq

/-- The crawler's `last_crawl_hashes` dict (URL → content hash),
modelled as an association list. -/
def lookupHash : List (String × String) → String → Option String
  | [], _ => none
  | p :: ps, u => if p.1 = u then some p.2 else lookupHash ps u

/-- `self.last_crawl_hashes[url] = h` on the association-list model. -/
def setHash : List (String × String) → String → String → List (String × String)
  | [], u, h => [(u, h)]
  | p :: ps, u, h => if p.1 = u then (u, h) :: ps else p :: setHash ps u h

/-- Accumulated state of the `crawl_domain` loop: accepted page URLs
(`crawled_data`, identified by URL), the `updated` and `new` lists built
in sync mode, and the hash map. -/
structure CrawlState where
  pages : List String
  updated : List String
  upNew : List String
  hashes : List (String × String)
deriving DecidableEq

/-- Body of the `for url in urls` loop of `crawl_domain` (lines 208-231):
skip empty/short HTML, accept pages with more than 50 words, classify
against `last_crawl_hashes` in sync mode, then record the new hash.
`env` supplies the fetch/extract outcome per URL. -/
def crawlStep (env : String → FetchOutcome) (syncMode : Bool)
    (st : CrawlState) (url : String) : CrawlState :=
  let o := env url
  if o.htmlLen < 100 then st
  else if 50 < o.wordCount then
    let st1 : CrawlState := { st with pages := st.pages ++ [url] }
    let st2 : CrawlState :=
      if syncMode then
        match lookupHash st.hashes url with
        | some h =>
          if h ≠ o.contentHash then { st1 with updated := st1.updated ++ [url] } else st1
        | none => { st1 with upNew := st1.upNew ++ [url] }
      else st1
    { st2 with hashes := setHash st2.hashes url o.contentHash }
  else st

/-- `EnhancedDomainCrawler.crawl_domain`: discover pages from the seed,
then run the crawl loop starting from the crawler's current hash map. -/
def crawl_domain (env : String → FetchOutcome) (domain : String)
    (links : List String) (hashes0 : List (String × String)) (syncMode : Bool) : CrawlState :=
  (discover_pages domain links).foldl (crawlStep env syncMode)
    { pages := [], updated := [], upNew := [], hashes := hashes0 }

/-- `if not url.startswith(("http://", "https://")): url = "https://" + url`
in `crawl_specific_urls`. -/
def withHttps (url : String) : String :=
  if strStartsWith url "http://" || strStartsWith url "https://" then url
  else "https://" ++ url

/-- Accumulated state of the `crawl_specific_urls` loop: accepted page
URLs and the `failed` list. -/
structure SpecificCrawl where
  pages : List String
  failed : List String
deriving DecidableEq

/-- Body of the `for url in urls` loop of `crawl_specific_urls` (lines
258-277): prefix the scheme, record empty/short HTML in `failed`, accept
pages with more than 50 words, silently skip the rest.  (`fetch_html`
catches its own exceptions and returns empty HTML.) -/
def specificStep (env : String → FetchOutcome) (st : SpecificCrawl) (url : String) :
    SpecificCrawl :=
  let u := withHttps url
  let o := env u
  if o.htmlLen < 100 then { st with failed := st.failed ++ [u] }
  else if 50 < o.wordCount then { st with pages := st.pages ++ [u] }
  else st

/-- `EnhancedDomainCrawler.crawl_specific_urls`. -/
def crawl_specific_urls (env : String → FetchOutcome) (urls : List String) : SpecificCrawl :=
  urls.foldl (specificStep env) { pages := [], failed := [] }

/-- The `'domain'` key of the `crawl_specific_urls` result dict. -/
def multiple_urls_domain : String := "multiple-urls"

/-! ### Vector records and the ChromaDB model -/

/-- One persisted record of a ChromaDB collection: its id, document
text and the metadata fields relevant here (source identifier and chunk
index).  The embedding vector is a deterministic function of the text
(spec §6) and plays no role in the claims, so it is not carried. -/
structure VRecord where
  id : String
  text : String
  source : String
  chunkIndex : Nat
deriving DecidableEq

/-- Whether the collection already holds a record with the given id. -/
def hasId (c : List VRecord) (i : String) : Bool :=
  c.any (fun x => x.id == i)

/-- Model of ChromaDB `collection.add`: a record whose id already exists
in the collection is skipped with a warning ("Insert of existing
embedding ID"), neither duplicated nor overwritten; fresh ids are
appended. -/
def addRecords (c : List VRecord) (rs : List VRecord) : List VRecord :=
  rs.foldl (fun acc r => if hasId acc r.id then acc else acc ++ [r]) c

/-- The ChromaDB client: an association list from collection names to
collections.  `collection.count()` is the length of the record list. -/
abbrev Store := List (String × List VRecord)

def getCollection : Store → String → Option (List VRecord)
  | [], _ => none
  | p :: ps, n => if p.1 = n then some p.2 else getCollection ps n

def setCollection : Store → String → List VRecord → Store
  | [], n, c => [(n, c)]
  | p :: ps, n, c => if p.1 = n then (n, c) :: ps else p :: setCollection ps n c

def deleteCollection (s : Store) (n : String) : Store :=
  s.filter (fun p => p.1 ≠ n)

/-! ### Content processor (`core/processor.py`, class
`EnhancedContentProcessor`) -/

/-- One chunk produced by `create_chunks`: its text and the
`chunk_index` / `chunk_size` metadata fields. -/
structure Chunk where
  text : String
  chunk_index : Nat
  chunk_size : Nat
deriving DecidableEq

/-- `EnhancedContentProcessor.create_chunks`: split the content into
words, then windows of `size` words starting every `size - overlap`
words (`range(0, len(words), CHUNK_SIZE - CHUNK_OVERLAP)`).  The
configured size and overlap are parameters; the source instantiates
them with `Config.CHUNK_SIZE` and `Config.CHUNK_OVERLAP`. -/
def create_chunks (size overlap : Nat) (content : String) : List Chunk :=
  let words := pySplitWs content
  let step := size - overlap
  (List.range ((words.length + step - 1) / step)).map (fun k =>
    { text := joinSpace ((words.drop (k * step)).take size)
      chunk_index := k
      chunk_size := ((words.drop (k * step)).take size).length })

/-- One crawled page as consumed by `process_domain_data`: its URL and
extracted content.  (Title, headings, word count, hash and timestamp are
carried into chunk metadata but play no role in the claims.) -/
structure Page where
  url : String
  content : String
deriving DecidableEq

/-- The crawl result consumed by `process_domain_data`: the `'domain'`
key and the page list. -/
structure DomainData where
  domain : String
  pages : List Page
deriving DecidableEq

/-- The `all_chunks` list of `process_domain_data`: chunks of every page
in order, each paired with its page's URL (the `'url'` metadata). -/
def all_chunks (dd : DomainData) : List (Chunk × String) :=
  dd.pages.foldl
    (fun acc p =>
      acc ++ (create_chunks Config.CHUNK_SIZE Config.CHUNK_OVERLAP p.content).map
        (fun ch => (ch, p.url)))
    []

/-- The id `f"chunk_{n}"` given to the n-th added chunk. -/
def chunkId (n : Nat) : String :=
  "chunk_" ++ decStr n

/-- The records added by `process_domain_data`: ids
`chunk_{i + offset}` where `offset` is `collection.count()` in sync mode
and `0` otherwise. -/
def chunkRecords (offset : Nat) (cs : List (Chunk × String)) : List VRecord :=
  cs.enum.map (fun ic =>
    { id := chunkId (ic.1 + offset)
      text := ic.2.1.text
      source := ic.2.2
      chunkIndex := ic.2.1.chunk_index })

/-- `EnhancedContentProcessor.process_domain_data`.  The collection name
is `f"domain_{abs(hash(domain_key)) % 1000000}"`; Python's `hash` is a
fixed function of the string within one process, modelled by the
parameter `nameOf`.  In non-sync mode the collection is deleted and
recreated; in sync mode it is fetched (or created when missing) and the
new records' ids are offset by its current count.  Returns the updated
store and the collection name. -/
def process_domain_data (nameOf : String → String) (store : Store)
    (dd : DomainData) (syncMode : Bool) : Store × String :=
  let collection_name := nameOf dd.domain
  let store1 :=
    if syncMode then
      match getCollection store collection_name with
      | some _ => store
      | none => setCollection store collection_name []
    else setCollection (deleteCollection store collection_name) collection_name []
  let current := (getCollection store1 collection_name).getD []
  let cs := all_chunks dd
  let records := chunkRecords (if syncMode then current.length else 0) cs
  let newColl := if cs.isEmpty then current else addRecords current records
  (setCollection store1 collection_name newColl, collection_name)

/-- `EnhancedContentProcessor.search_similar_content`.  The processor's
`self.collection` may be unset (`none`).  `rank q c` models the vector
index's `collection.query`: the records of `c` ordered by embedding
distance to the query `q`; the theorems assume only that it is a
permutation of `c`.  The code clamps `n_results` to the collection
count, returns `[]` when the clamp is zero, and otherwise materialises
the returned matches. -/
def search_similar_content (rank : String → List VRecord → List VRecord)
    (collection : Option (List VRecord)) (query : String) (n_results : Nat) :
    List VRecord :=
  match collection with
  | none => []
  | some c =>
    let adjusted := min n_results c.length
    if adjusted = 0 then [] else (rank query c).take adjusted

/-! ### Document pipeline (`core/doc_vector_store.py`,
`core/doc_processor.py`) -/

/-- One document chunk handed to `upsert_chunks`: its text and the
`file_name` metadata used in the id. -/
structure DocChunk where
  text : String
  file_name : String
deriving DecidableEq

/-- The id `f"doc_{session_id}_{i}_{file_name}"` of
`DocumentVectorStore.upsert_chunks`. -/
def docChunkId (sessionId : String) (i : Nat) (fileName : String) : String :=
  "doc_" ++ sessionId ++ "_" ++ decStr i ++ "_" ++ fileName

/-- The record built for one enumerated document chunk. -/
def docRecord (sessionId : String) (p : Nat × DocChunk) : VRecord :=
  { id := docChunkId sessionId p.1 p.2.file_name
    text := p.2.text
    source := p.2.file_name
    chunkIndex := p.1 }

/-- `DocumentVectorStore.upsert_chunks`: no-op on an empty list,
otherwise `collection.add` one record at a time with the deterministic
ids above. -/
def upsert_chunks (sessionId : String) (c : List VRecord) (docs : List DocChunk) :
    List VRecord :=
  if docs.isEmpty then c
  else docs.enum.foldl (fun acc p => addRecords acc [docRecord sessionId p]) c

/-- `DocumentVectorStore.similarity_search`: default `top_k` is
`DOC_CONTEXT_CHUNKS`, clamped to the collection count, `[]` when the
clamp is zero. -/
def doc_similarity_search (rank : String → List VRecord → List VRecord)
    (c : List VRecord) (query : String) (top_k : Option Nat) : List VRecord :=
  let k := top_k.getD DocConfig.DOC_CONTEXT_CHUNKS
  let k2 := min k c.length
  if k2 = 0 then [] else (rank query c).take k2

/-- `DocumentProcessor.chunk_text`: return `[]` for blank input
(`if not text.strip()`), otherwise delegate to the LangChain
`TokenTextSplitter` (external collaborator, passed as `splitText`). -/
def chunk_text (splitText : String → List String) (text : String) : List String :=
  if text.data.all Char.isWhitespace then [] else splitText text

/-! ### Chat histories (`core/llm_local.py` and `core/doc_analyzer.py`) -/

/-- One chat message. -/
structure ChatMsg where
  role : String
  content : String
deriving DecidableEq

/-- `LlamaCppAnalyzer.add_to_history`: append the user/assistant pair,
then keep only the last `MAX_CHAT_HISTORY * 2` messages when over the
cap (`self.chat_history[-(Config.MAX_CHAT_HISTORY * 2):]`). -/
def add_to_history (h : List ChatMsg) (userMsg assistantMsg : String) : List ChatMsg :=
  let h1 := h ++ [{ role := "user", content := userMsg },
                  { role := "assistant", content := assistantMsg }]
  if Config.MAX_CHAT_HISTORY * 2 < h1.length then
    h1.drop (h1.length - Config.MAX_CHAT_HISTORY * 2)
  else h1

/-- `DocumentGroqAnalyzer._add_turn`: append the pair, then always slice
to the last `DOC_MAX_CHAT_HISTORY * 2` messages (a Python `[-n:]` slice
of a list of at most `n` elements is the whole list, matching `drop` on
truncated subtraction). -/
def doc_add_turn (h : List ChatMsg) (userMsg assistantMsg : String) : List ChatMsg :=
  let h1 := h ++ [{ role := "user", content := userMsg },
                  { role := "assistant", content := assistantMsg }]
  h1.drop (h1.length - DocConfig.DOC_MAX_CHAT_HISTORY * 2)

/-- Fold a list of (user, assistant) turns into a history. -/
def foldTurns (h : List ChatMsg) (turns : List (String × String)) : List ChatMsg :=
  turns.foldl (fun acc t => add_to_history acc t.1 t.2) h

/-- Fold turns through the document-side `_add_turn`. -/
def foldDocTurns (h : List ChatMsg) (turns : List (String × String)) : List ChatMsg :=
  turns.foldl (fun acc t => doc_add_turn acc t.1 t.2) h

/-- The flat message list of a list of turns. -/
def flatTurns : List (String × String) → List ChatMsg
  | [] => []
  | t :: ts =>
    { role := "user", content := t.1 } :: { role := "assistant", content := t.2 } ::
      flatTurns ts

/-! ### Sync guard (`core/analyzer.py`, `EnhancedDomainAnalyzer.sync_domain`) -/

/-- The guard of `sync_domain` (lines 173-182): `True` when the request
is rejected with an error before any crawl.  `currentDomain` is
`self.current_domain` (`none` models Python `None`), `metaDomain` is
`self.processor.domain_metadata.get('domain')`. -/
def sync_domain_rejected (currentDomain : Option String) (metaDomain : Option String) :
    Bool :=
  match currentDomain with
  | none => true
  | some cd =>
    cd == "" || strStartsWith cd "session_chroma_" ||
      (match metaDomain with
       | none => true
       | some ods => ods == "" || strStartsWith ods "uploads:")

/-! ### Concrete fixtures used by counterexamples and witnesses -/

/-- A per-process collection-name function for the concrete runs
(`abs(hash('https://ex.com')) % 1000000 = 1` in some process). -/
def c1NameOf : String → String := fun _ => "domain_1"

/-- A one-page crawl result whose single page chunks to exactly one
chunk. -/
def c1DomainData : DomainData :=
  { domain := "https://ex.com"
    pages := [{ url := "https://ex.com/p", content := "alpha beta" }] }

/-- Store after a fresh analyze of `c1DomainData`. -/
def c1StoreFresh : Store := (process_domain_data c1NameOf [] c1DomainData false).1

/-- Store after the fresh analyze followed by a sync re-process of the
identical (unchanged) crawl data. -/
def c1StoreSynced : Store := (process_domain_data c1NameOf c1StoreFresh c1DomainData true).1

/-- Seed page for the discovery-order counterexample. -/
def c3Seed : String := "https://example.com"

/-- The candidate links of the seed page, in first-seen document order:
a link matching the keyword `service` appears before a link matching the
keyword `about`. -/
def c3Links : List String := ["https://example.com/service", "https://example.com/about"]

/-- Fetch environment for the sync-classification witness: the seed page
has long HTML and 60 words. -/
def c5Env : String → FetchOutcome :=
  fun u => if u = "https://a.com" then ⟨200, 60, "h2"⟩ else ⟨0, 0, ""⟩

/-- Previously recorded hash map: the seed URL was seen with a different
hash. -/
def c5Hashes : List (String × String) := [("https://a.com", "h1")]

/-- The sync crawl under `c5Env`. -/
def c5State : CrawlState := crawl_domain c5Env "https://a.com" [] c5Hashes true

/-- Fetch environment where every URL yields long HTML but only 10 words
of extracted content (unusable: below the 50-word acceptance bound). -/
def c7Env : String → FetchOutcome := fun _ => ⟨200, 10, "h"⟩

/-- Fetch environment where every fetch fails (empty HTML). -/
def czEnv : String → FetchOutcome := fun _ => ⟨0, 0, ""⟩

/-- A concrete stored record. -/
def wRec : VRecord := { id := "id0", text := "t", source := "s", chunkIndex := 0 }

/-! ## Theorems -/

/-! ### Chat-history lemmas -/

theorem hist_cap_val : Config.MAX_CHAT_HISTORY * 2 = 40 := rfl

theorem doc_hist_cap_val : DocConfig.DOC_MAX_CHAT_HISTORY * 2 = 40 := rfl

/-- The two messages appended by one chat turn. -/
theorem flatTurns_cons (t : String × String) (ts : List (String × String)) :
    flatTurns (t :: ts) =
      ({ role := "user", content := t.1 } : ChatMsg) ::
        ({ role := "assistant", content := t.2 } : ChatMsg) :: flatTurns ts := rfl

theorem add_to_history_eq_doc_add_turn (h : List ChatMsg) (u a : String) :
    add_to_history h u a = doc_add_turn h u a := by
  simp only [add_to_history, doc_add_turn, hist_cap_val, doc_hist_cap_val]
  split
  · rfl
  next hnot =>
    rw [Nat.sub_eq_zero_of_le (Nat.le_of_not_lt hnot), List.drop_zero]

theorem add_to_history_drop (F h : List ChatMsg) (u a : String)
    (hh : h = F.drop (F.length - 40)) :
    add_to_history h u a =
      (F ++ flatTurns [(u, a)]).drop ((F ++ flatTurns [(u, a)]).length - 40) := by
  subst hh
  simp only [flatTurns]
  have hle : F.length - 40 ≤ F.length := Nat.sub_le _ _
  simp only [add_to_history, hist_cap_val]
  rw [← List.drop_append_of_le_length hle]
  split
  next hbig =>
    rw [List.drop_drop]
    congr 1
    simp only [List.length_drop, List.length_append] at hbig ⊢
    omega
  next hsmall =>
    congr 1
    simp only [List.length_drop, List.length_append] at hsmall ⊢
    omega

theorem foldTurns_drop (turns : List (String × String)) : ∀ F h : List ChatMsg,
    h = F.drop (F.length - 40) →
    foldTurns h turns = (F ++ flatTurns turns).drop ((F ++ flatTurns turns).length - 40) := by
  induction turns with
  | nil =>
    intro F h hh
    simpa [foldTurns, flatTurns] using hh
  | cons t ts ih =>
    intro F h hh
    have hstep := add_to_history_drop F h t.1 t.2 hh
    simp only [flatTurns] at hstep
    have hrec := ih
      (F ++ [{ role := "user", content := t.1 }, { role := "assistant", content := t.2 }])
      (add_to_history h t.1 t.2) (by simpa using hstep)
    simp only [foldTurns, List.foldl_cons] at hrec ⊢
    rw [hrec]
    simp [flatTurns, List.append_assoc]

theorem foldDocTurns_eq_foldTurns (turns : List (String × String)) :
    ∀ h : List ChatMsg, foldDocTurns h turns = foldTurns h turns := by
  induction turns with
  | nil => intro h; rfl
  | cons t ts ih =>
    intro h
    simp only [foldDocTurns, foldTurns, List.foldl_cons] at ih ⊢
    rw [← add_to_history_eq_doc_add_turn, ih]

/-- C6: starting from an empty history, any sequence of chat-turn
appends leaves each history (domain `add_to_history` and document
`_add_turn` alike) equal to the suffix of the full turn stream that fits
under the cap — at most `MAX_CHAT_HISTORY` (= 20) turns, i.e. 40
messages, the oldest turns evicted first and the most recent
preserved. -/
theorem chat_history_bounded : ∀ turns : List (String × String),
    foldTurns [] turns =
      (flatTurns turns).drop ((flatTurns turns).length - Config.MAX_CHAT_HISTORY * 2)
    ∧ (foldTurns [] turns).length ≤ Config.MAX_CHAT_HISTORY * 2
    ∧ foldDocTurns [] turns =
      (flatTurns turns).drop ((flatTurns turns).length - DocConfig.DOC_MAX_CHAT_HISTORY * 2)
    ∧ (foldDocTurns [] turns).length ≤ DocConfig.DOC_MAX_CHAT_HISTORY * 2
    ∧ Config.MAX_CHAT_HISTORY * 2 = 40 ∧ DocConfig.DOC_MAX_CHAT_HISTORY * 2 = 40 := by
  intro turns
  have hdom := foldTurns_drop turns [] [] (by simp)
  simp only [List.nil_append] at hdom
  have hdoc : foldDocTurns [] turns = foldTurns [] turns := foldDocTurns_eq_foldTurns turns []
  have hlen : (foldTurns [] turns).length ≤ 40 := by
    rw [hdom]
    simp only [List.length_drop]
    omega
  refine ⟨by rw [hist_cap_val]; exact hdom, by rw [hist_cap_val]; exact hlen, ?_, ?_, rfl, rfl⟩
  · rw [doc_hist_cap_val, hdoc]; exact hdom
  · rw [doc_hist_cap_val, hdoc]; exact hlen

/-! ### Sync-guard evaluation -/

/-- C8: the guard of `sync_domain` does not reject a session populated
from a list of ad-hoc URLs.  After `analyze_specific_urls`, the
processor's `domain_metadata['domain']` is `'multiple-urls'` (the
`'domain'` key of `crawl_specific_urls`) and `current_domain` is a
`domain_…` collection name; the guard only tests the dead marker
`uploads:`, so the sync proceeds to crawl the literal string
`multiple-urls` — contradicting the code's own error message "Sync is
only supported for crawled domains, not uploaded files or multiple
URLs."  Document-backed sessions (`session_chroma_…`) are rejected as
specified. -/
theorem sync_guard_misses_multiple_urls :
    sync_domain_rejected (some "domain_123456") (some multiple_urls_domain) = false
    ∧ sync_domain_rejected (some "session_chroma_abc") (some "https://x.com") = true
    ∧ sync_domain_rejected none (some "https://x.com") = true := by
  decide

/-! ### Chunking lemmas -/

theorem wsTokensAux_eq_nil_iff : ∀ (cs : List Char) (acc : List Char),
    wsTokensAux cs acc = [] ↔ (∀ c ∈ cs, c.isWhitespace = true) ∧ acc = [] := by
  intro cs
  induction cs with
  | nil =>
    intro acc
    cases acc <;> simp [wsTokensAux]
  | cons c rest ih =>
    intro acc
    by_cases hw : c.isWhitespace = true
    · cases acc with
      | nil =>
        simp only [wsTokensAux, List.isEmpty_nil, if_true, hw, if_pos]
        rw [ih []]
        simp [hw]
      | cons a as =>
        simp [wsTokensAux, hw]
    · have hstep : wsTokensAux (c :: rest) acc = wsTokensAux rest (c :: acc) := by
        simp [wsTokensAux, hw]
      rw [hstep, ih (c :: acc)]
      simp [hw]

theorem pySplitWs_eq_nil_iff (s : String) :
    pySplitWs s = [] ↔ ∀ c ∈ s.data, c.isWhitespace = true := by
  rw [pySplitWs, wsTokensAux_eq_nil_iff]
  simp

theorem create_chunks_eq_nil_iff (size overlap : Nat) (content : String)
    (hso : overlap < size) :
    create_chunks size overlap content = [] ↔ ∀ c ∈ content.data, c.isWhitespace = true := by
  have hstep : 0 < size - overlap := by omega
  rw [← pySplitWs_eq_nil_iff]
  simp only [create_chunks, List.map_eq_nil_iff, List.range_eq_nil]
  rw [Nat.div_eq_zero_iff (by omega)]
  constructor
  · intro hlt
    have : (pySplitWs content).length = 0 := by omega
    exact List.length_eq_zero.mp this
  · intro hnil
    rw [hnil]
    simp only [List.length_nil]
    omega

/-- C9: with a valid configuration (`overlap < size`, as the configured
1000/200 and the documents' 300/60), `create_chunks` returns `[]`
exactly when the content is empty or whitespace-only (no non-whitespace
token), and a non-empty chunk list otherwise; `chunk_text` returns `[]`
for blank input and otherwise delegates to the LangChain token
splitter, so it is non-empty whenever that splitter returns chunks —
neither function can fail. -/
theorem chunking_nonempty_iff_nonblank (size overlap : Nat) (content : String)
    (splitText : String → List String) (hso : overlap < size) :
    (create_chunks size overlap content = [] ↔ ∀ c ∈ content.data, c.isWhitespace = true)
    ∧ (chunk_text splitText content = [] ↔
        (∀ c ∈ content.data, c.isWhitespace = true) ∨ splitText content = []) := by
  refine ⟨create_chunks_eq_nil_iff size overlap content hso, ?_⟩
  by_cases hb : ∀ c ∈ content.data, c.isWhitespace = true
  · simp only [chunk_text, List.all_eq_true.mpr hb, if_true, true_iff]
    exact Or.inl hb
  · have : content.data.all Char.isWhitespace = false := by
      rw [← Bool.not_eq_true, List.all_eq_true]
      exact fun hc => hb (fun c h => hc c h)
    simp [chunk_text, this, hb]

/-- Witness for C9 at the configured sizes, content `"hello world"` and
the one-chunk splitter. -/
theorem chunking_nonempty_iff_nonblank_witness :
    create_chunks 1000 200 "hello world" ≠ [] := by
  have h :=
    (chunking_nonempty_iff_nonblank 1000 200 "hello world" (fun t => [t]) (by decide)).1
  intro hc
  have hws := h.mp hc
  have := hws 'h' (by decide)
  simp at this

/-! ### Similarity-search bounds -/

/-- C2: for every ranking behaviour of the vector index that returns
the collection's records in some order, `search_similar_content`
(processor side, `none` = unset collection) and `similarity_search`
(document side, `none` = default `top_k`) return at most
`min k count()` results, and return `[]` — never an error — when the
collection is empty or `k` resolves to zero. -/
theorem similarity_search_bounds (rank : String → List VRecord → List VRecord)
    (hrank : ∀ q c, (rank q c).length = c.length)
    (collection : Option (List VRecord)) (q : String) (k : Nat)
    (c : List VRecord) (top_k : Option Nat) :
    ((search_similar_content rank collection q k).length ≤ min k ((collection.getD []).length)
      ∧ ((collection.getD []).length = 0 → search_similar_content rank collection q k = [])
      ∧ (k = 0 → search_similar_content rank collection q k = []))
    ∧ ((doc_similarity_search rank c q top_k).length ≤
          min (top_k.getD DocConfig.DOC_CONTEXT_CHUNKS) c.length
      ∧ (c.length = 0 → doc_similarity_search rank c q top_k = [])
      ∧ (top_k = some 0 → doc_similarity_search rank c q top_k = [])) := by
  constructor
  · match collection with
    | none => simp [search_similar_content]
    | some cc =>
      simp only [search_similar_content, Option.getD_some]
      refine ⟨?_, ?_, ?_⟩
      · split
        · simp
        · simp only [List.length_take, hrank]
          omega
      · intro h0
        rw [if_pos (by omega)]
      · intro hk
        subst hk
        rw [if_pos (by omega)]
  · simp only [doc_similarity_search]
    refine ⟨?_, ?_, ?_⟩
    · split
      · simp
      · simp only [List.length_take, hrank]
        omega
    · intro h0
      rw [if_pos (by omega)]
    · intro hk
      subst hk
      rw [if_pos (by simp)]

/-- Witness for C2: identity ranking, a one-record collection, `k = 3`,
and an empty document collection with default `top_k`. -/
theorem similarity_search_bounds_witness :
    (search_similar_content (fun _ c => c) (some [wRec]) "q" 3).length ≤
      min 3 (((some [wRec] : Option (List VRecord)).getD []).length)
    ∧ ((([] : List VRecord).length = 0) →
        doc_similarity_search (fun _ c => c) [] "q" none = []) :=
  ⟨(similarity_search_bounds (fun _ c => c) (fun _ _ => rfl) (some [wRec]) "q" 3 [] none).1.1,
   (similarity_search_bounds (fun _ c => c) (fun _ _ => rfl) (some [wRec]) "q" 3 [] none).2.2.1⟩

/-! ### Decimal rendering is injective -/

theorem decDigitChar_val (d : Nat) (hd : d < 10) : (decDigitChar d).toNat - 48 = d := by
  interval_cases d <;> decide

theorem parseDec_append_digit (l : List Char) (c : Char) :
    parseDec (l ++ [c]) = parseDec l * 10 + (c.toNat - 48) := by
  simp [parseDec, List.foldl_append]

theorem parseDec_decCharsCore : ∀ (fuel n : Nat), n < fuel →
    parseDec (decCharsCore fuel n) = n := by
  intro fuel
  induction fuel with
  | zero => intro n h; omega
  | succ fuel ih =>
    intro n h
    by_cases h10 : n < 10
    · simp only [decCharsCore, if_pos h10]
      have := decDigitChar_val n h10
      simp [parseDec, this]
    · simp only [decCharsCore, if_neg h10]
      rw [parseDec_append_digit]
      have hdiv : n / 10 < fuel := by
        have h1 : n / 10 < n := Nat.div_lt_self (by omega) (by omega)
        omega
      rw [ih (n / 10) hdiv, decDigitChar_val (n % 10) (Nat.mod_lt n (by omega))]
      omega

theorem decStr_data_inj (m n : Nat) (h : (decStr m).data = (decStr n).data) : m = n := by
  have hm := parseDec_decCharsCore (m + 1) m (Nat.lt_succ_self m)
  have hn := parseDec_decCharsCore (n + 1) n (Nat.lt_succ_self n)
  have : decCharsCore (m + 1) m = decCharsCore (n + 1) n := h
  rw [this, hn] at hm
  omega

theorem str_data_append (s t : String) : (s ++ t).data = s.data ++ t.data := rfl

theorem chunkId_inj (m n : Nat) (h : chunkId m = chunkId n) : m = n := by
  have hd := congrArg String.data h
  rw [chunkId, chunkId, str_data_append, str_data_append] at hd
  exact decStr_data_inj m n (List.append_cancel_left hd)

/-! ### ChromaDB `add` lemmas -/

theorem addRecords_single (c : List VRecord) (r : VRecord) :
    addRecords c [r] = if hasId c r.id then c else c ++ [r] := rfl

theorem hasId_append (c d : List VRecord) (i : String) :
    hasId (c ++ d) i = (hasId c i || hasId d i) := List.any_append

theorem hasId_addRecords_mono (rs : List VRecord) : ∀ (c : List VRecord) (i : String),
    hasId c i = true → hasId (addRecords c rs) i = true := by
  induction rs with
  | nil => intro c i h; exact h
  | cons r rest ih =>
    intro c i h
    show hasId (List.foldl _ (if hasId c r.id then c else c ++ [r]) rest) i = true
    refine ih _ i ?_
    split
    · exact h
    · rw [hasId_append, h, Bool.true_or]

theorem hasId_addRecords_self (c : List VRecord) (r : VRecord) :
    hasId (addRecords c [r]) r.id = true := by
  rw [addRecords_single]
  split
  next h => exact h
  next h =>
    rw [hasId_append, Bool.or_eq_true]
    right
    simp [hasId]

theorem addRecords_fresh : ∀ (rs : List VRecord) (c : List VRecord),
    (rs.map VRecord.id).Nodup → (∀ r ∈ rs, hasId c r.id = false) →
    addRecords c rs = c ++ rs := by
  intro rs
  induction rs with
  | nil => intro c _ _; simp [addRecords]
  | cons r rest ih =>
    intro c hnd hfresh
    show List.foldl _ (if hasId c r.id then c else c ++ [r]) rest = c ++ r :: rest
    rw [if_neg (by rw [hfresh r (List.mem_cons_self r rest)]; exact Bool.false_ne_true)]
    have hnd' : (rest.map VRecord.id).Nodup := (List.nodup_cons.mp hnd).2
    have hhead : r.id ∉ rest.map VRecord.id := (List.nodup_cons.mp hnd).1
    have hfresh' : ∀ x ∈ rest, hasId (c ++ [r]) x.id = false := by
      intro x hx
      rw [hasId_append, hfresh x (List.mem_cons_of_mem r hx), Bool.false_or]
      have hne : r.id ≠ x.id := by
        intro he
        exact hhead (by rw [he]; exact List.mem_map_of_mem VRecord.id hx)
      simp [hasId, hne]
    have := ih (c ++ [r]) hnd' hfresh'
    rw [show addRecords (c ++ [r]) rest = List.foldl _ (c ++ [r]) rest from rfl] at this
    rw [this, List.append_assoc]
    rfl

theorem chunkRecords_ids_nodup (offset : Nat) (cs : List (Chunk × String)) :
    ((chunkRecords offset cs).map VRecord.id).Nodup := by
  have h1 : (chunkRecords offset cs).map VRecord.id =
      cs.enum.map (fun ic => chunkId (ic.1 + offset)) := by
    simp [chunkRecords, List.map_map]
  have h2 : cs.enum.map (fun ic => chunkId (ic.1 + offset)) =
      (cs.enum.map Prod.fst).map (fun i => chunkId (i + offset)) := by
    rw [List.map_map]
    rfl
  rw [h1, h2, List.enum_map_fst]
  refine List.Nodup.map ?_ (List.nodup_range _)
  intro i j hij
  have := chunkId_inj (i + offset) (j + offset) hij
  omega

theorem addRecords_nil_fresh (rs : List VRecord) (hnd : (rs.map VRecord.id).Nodup) :
    addRecords [] rs = rs := by
  rw [addRecords_fresh rs [] hnd (by intro r _; rfl)]
  rfl

/-! ### Store lemmas -/

theorem getCollection_setCollection (s : Store) (n : String) (c : List VRecord) :
    getCollection (setCollection s n c) n = some c := by
  induction s with
  | nil => simp [setCollection, getCollection]
  | cons p ps ih =>
    by_cases hp : p.1 = n
    · simp [setCollection, getCollection, hp]
    · simp [setCollection, getCollection, hp, ih]

theorem getCollection_setCollection_ne (s : Store) (n m : String) (c : List VRecord)
    (hne : m ≠ n) : getCollection (setCollection s n c) m = getCollection s m := by
  induction s with
  | nil =>
    show (if n = m then some c else none) = none
    rw [if_neg (fun h => hne h.symm)]
  | cons p ps ih =>
    simp only [setCollection]
    split_ifs with hp
    · show (if n = m then some c else getCollection ps m) =
        if p.1 = m then some p.2 else getCollection ps m
      rw [if_neg (fun h => hne h.symm), if_neg (fun h => hne (hp.symm.trans h).symm)]
    · show (if p.1 = m then some p.2 else getCollection (setCollection ps n c) m) =
        if p.1 = m then some p.2 else getCollection ps m
      split_ifs with hm
      · rfl
      · exact ih

theorem getCollection_deleteCollection_ne (s : Store) (n m : String) (hne : m ≠ n) :
    getCollection (deleteCollection s n) m = getCollection s m := by
  induction s with
  | nil => rfl
  | cons p ps ih =>
    simp only [deleteCollection, List.filter_cons] at ih ⊢
    by_cases hp : p.1 = n
    · rw [if_neg (by simp [hp]), ih]
      show getCollection ps m = if p.1 = m then some p.2 else getCollection ps m
      rw [if_neg (fun h => hne (hp.symm.trans h).symm)]
    · rw [if_pos (by simp [hp])]
      show (if p.1 = m then some p.2 else getCollection (List.filter _ ps) m) =
        if p.1 = m then some p.2 else getCollection ps m
      split_ifs with hm
      · rfl
      · exact ih

/-- Non-sync `process_domain_data` stores exactly the fresh chunk
records under the collection name, whatever the store held before. -/
theorem process_nonsync_getCollection (nameOf : String → String) (store : Store)
    (dd : DomainData) :
    getCollection (process_domain_data nameOf store dd false).1 (nameOf dd.domain) =
      some (chunkRecords 0 (all_chunks dd)) := by
  simp only [process_domain_data, Bool.false_eq_true, if_false,
    getCollection_setCollection, Option.getD_some]
  by_cases hcs : (all_chunks dd).isEmpty = true
  · rw [if_pos hcs, List.isEmpty_iff.mp hcs]
    rfl
  · rw [if_neg hcs, addRecords_nil_fresh _ (chunkRecords_ids_nodup 0 (all_chunks dd))]

/-! ### C1 and C10 -/

/-- C1 (amended): `DocumentVectorStore.upsert_chunks` is idempotent —
its ids depend only on the session, position and file name, and
ChromaDB `add` skips existing ids, so re-upserting the same chunk list
adds no record; likewise a repeated non-sync `process_domain_data`
leaves the identical collection because the collection is replaced.
(The sync path is NOT idempotent: see the counterexample.) -/
theorem upsert_idempotent :
    (∀ (sessionId : String) (c : List VRecord) (docs : List DocChunk),
      upsert_chunks sessionId (upsert_chunks sessionId c docs) docs =
        upsert_chunks sessionId c docs)
    ∧ (∀ (nameOf : String → String) (store : Store) (dd : DomainData),
      getCollection
          (process_domain_data nameOf (process_domain_data nameOf store dd false).1
            dd false).1 (nameOf dd.domain) =
        getCollection (process_domain_data nameOf store dd false).1 (nameOf dd.domain)) := by
  constructor
  · intro sessionId c docs
    by_cases hd : docs.isEmpty = true
    · simp [upsert_chunks, hd]
    · simp only [upsert_chunks, hd, if_neg, if_false]
      have hgen : ∀ (l : List (Nat × DocChunk)) (acc : List VRecord) (i : String),
          hasId acc i = true →
          hasId (l.foldl (fun acc p => addRecords acc [docRecord sessionId p]) acc) i
            = true := by
        intro l
        induction l with
        | nil => intro acc i h; exact h
        | cons q rest ih =>
          intro acc i h
          exact ih _ i (hasId_addRecords_mono [docRecord sessionId q] acc i h)
      have hmem : ∀ (l : List (Nat × DocChunk)) (acc : List VRecord),
          ∀ p ∈ l,
          hasId (l.foldl (fun acc p => addRecords acc [docRecord sessionId p]) acc)
            (docRecord sessionId p).id = true := by
        intro l
        induction l with
        | nil => intro acc p h; cases h
        | cons q rest ih =>
          intro acc p hp
          rw [List.foldl_cons]
          rcases List.mem_cons.mp hp with hq | hp'
          · subst hq
            exact hgen rest _ _ (hasId_addRecords_self _ _)
          · exact ih _ p hp'
      have hnoop : ∀ (l : List (Nat × DocChunk)) (acc : List VRecord),
          (∀ p ∈ l, hasId acc (docRecord sessionId p).id = true) →
          l.foldl (fun acc p => addRecords acc [docRecord sessionId p]) acc = acc := by
        intro l
        induction l with
        | nil => intro acc _; rfl
        | cons q rest ih =>
          intro acc hall
          have hq : addRecords acc [docRecord sessionId q] = acc := by
            rw [addRecords_single, if_pos (hall q (List.mem_cons_self q rest))]
          rw [List.foldl_cons, hq]
          exact ih acc (fun p hp => hall p (List.mem_cons_of_mem q hp))
      exact hnoop docs.enum _ (fun p hp => hmem docs.enum c p hp)
  · intro nameOf store dd
    rw [process_nonsync_getCollection, process_nonsync_getCollection]

/-- C1 counterexample: a fresh analyze of a one-page, one-chunk crawl
stores one record (`chunk_0`), and a sync re-process of the identical
unchanged crawl data stores a second record (`chunk_1`) with the same
text, source and chunk index — re-processing the same source does not
reuse the same id, so the collection count for one logical chunk grows
from 1 to 2. -/
theorem upsert_sync_duplicates :
    (all_chunks c1DomainData).length = 1
    ∧ ((getCollection c1StoreFresh "domain_1").getD []).length = 1
    ∧ ((getCollection c1StoreSynced "domain_1").getD []).length = 2
    ∧ ((getCollection c1StoreSynced "domain_1").getD []).map VRecord.id =
        ["chunk_0", "chunk_1"]
    ∧ ((getCollection c1StoreSynced "domain_1").getD []).map VRecord.text =
        ["alpha beta", "alpha beta"]
    ∧ ((getCollection c1StoreSynced "domain_1").getD []).map VRecord.source =
        ["https://ex.com/p", "https://ex.com/p"]
    ∧ ((getCollection c1StoreSynced "domain_1").getD []).map VRecord.chunkIndex = [0, 0] := by
  decide

/-- C10: non-sync `process_domain_data` is destructive replacement —
whatever the store previously held under the domain-derived collection
name is deleted, and afterwards that collection holds exactly the
records of this crawl's chunks (ids `chunk_0`, `chunk_1`, …), while
every other collection is untouched. -/
theorem process_nonsync_replaces :
    ∀ (nameOf : String → String) (store : Store) (dd : DomainData),
      (process_domain_data nameOf store dd false).2 = nameOf dd.domain
      ∧ getCollection (process_domain_data nameOf store dd false).1 (nameOf dd.domain) =
          some (chunkRecords 0 (all_chunks dd))
      ∧ ∀ n, n ≠ nameOf dd.domain →
          getCollection (process_domain_data nameOf store dd false).1 n =
            getCollection store n := by
  intro nameOf store dd
  refine ⟨rfl, process_nonsync_getCollection nameOf store dd, ?_⟩
  intro n hn
  simp only [process_domain_data, Bool.false_eq_true, if_neg, if_false]
  rw [getCollection_setCollection_ne _ _ _ _ hn, getCollection_setCollection_ne _ _ _ _ hn,
    getCollection_deleteCollection_ne _ _ _ hn]

/-! ### Discovery lemmas -/

theorem mem_addKeywordMatches : ∀ (links : List String) (acc : List String) (kw x : String),
    x ∈ addKeywordMatches links acc kw →
    x ∈ acc ∨ (x ∈ links ∧ strContains (strLower x) kw = true) := by
  intro links
  induction links with
  | nil => intro acc kw x h; exact Or.inl h
  | cons l ls ih =>
    intro acc kw x h
    rw [show addKeywordMatches (l :: ls) acc kw =
      addKeywordMatches ls
        (if strContains (strLower l) kw && !(acc.contains l) then acc ++ [l] else acc) kw
      from rfl] at h
    rcases ih _ kw x h with hx | ⟨hls, hkw⟩
    · split at hx
      next hcond =>
        rcases List.mem_append.mp hx with hacc | hl
        · exact Or.inl hacc
        · have hx_eq : x = l := List.mem_singleton.mp hl
          subst hx_eq
          rw [Bool.and_eq_true] at hcond
          exact Or.inr ⟨List.mem_cons_self x ls, hcond.1⟩
      next => exact Or.inl hx
    · exact Or.inr ⟨List.mem_cons_of_mem l hls, hkw⟩

theorem subset_addKeywordMatches : ∀ (links : List String) (acc : List String) (kw x : String),
    x ∈ acc → x ∈ addKeywordMatches links acc kw := by
  intro links
  induction links with
  | nil => intro acc kw x h; exact h
  | cons l ls ih =>
    intro acc kw x h
    rw [show addKeywordMatches (l :: ls) acc kw =
      addKeywordMatches ls
        (if strContains (strLower l) kw && !(acc.contains l) then acc ++ [l] else acc) kw
      from rfl]
    refine ih _ kw x ?_
    split
    · exact List.mem_append_left _ h
    · exact h

theorem mem_addKeywordMatches_of : ∀ (links : List String) (acc : List String) (kw x : String),
    x ∈ links → strContains (strLower x) kw = true → x ∈ addKeywordMatches links acc kw := by
  intro links
  induction links with
  | nil => intro acc kw x h _; cases h
  | cons l ls ih =>
    intro acc kw x hx hkw
    rw [show addKeywordMatches (l :: ls) acc kw =
      addKeywordMatches ls
        (if strContains (strLower l) kw && !(acc.contains l) then acc ++ [l] else acc) kw
      from rfl]
    rcases List.mem_cons.mp hx with hxl | hxls
    · subst hxl
      by_cases hc : acc.contains x = true
      · refine subset_addKeywordMatches ls _ kw x ?_
        split
        · exact List.mem_append_left _ (by simpa using hc)
        · exact (by simpa using hc)
      · rw [if_pos (by rw [hkw]; simpa using hc)]
        exact subset_addKeywordMatches ls _ kw x
          (List.mem_append_right _ (List.mem_singleton_self x))
    · exact ih _ kw x hxls hkw

theorem mem_foldl_addKeywordMatches : ∀ (kws : List String) (links : List String)
    (acc : List String) (x : String),
    x ∈ kws.foldl (addKeywordMatches links) acc →
    x ∈ acc ∨ (x ∈ links ∧ ∃ kw ∈ kws, strContains (strLower x) kw = true) := by
  intro kws
  induction kws with
  | nil => intro links acc x h; exact Or.inl h
  | cons k ks ih =>
    intro links acc x h
    rw [List.foldl_cons] at h
    rcases ih links _ x h with hx | ⟨hl, kw, hkw, hc⟩
    · rcases mem_addKeywordMatches links acc k x hx with hacc | ⟨hl, hc⟩
      · exact Or.inl hacc
      · exact Or.inr ⟨hl, k, List.mem_cons_self k ks, hc⟩
    · exact Or.inr ⟨hl, kw, List.mem_cons_of_mem k hkw, hc⟩

theorem subset_foldl_addKeywordMatches : ∀ (kws : List String) (links : List String)
    (acc : List String) (x : String),
    x ∈ acc → x ∈ kws.foldl (addKeywordMatches links) acc := by
  intro kws
  induction kws with
  | nil => intro links acc x h; exact h
  | cons k ks ih =>
    intro links acc x h
    rw [List.foldl_cons]
    exact ih links _ x (subset_addKeywordMatches links acc k x h)

theorem mem_foldl_addKeywordMatches_of : ∀ (kws : List String) (links : List String)
    (acc : List String) (x kw : String),
    kw ∈ kws → x ∈ links → strContains (strLower x) kw = true →
    x ∈ kws.foldl (addKeywordMatches links) acc := by
  intro kws
  induction kws with
  | nil => intro links acc x kw h _ _; cases h
  | cons k ks ih =>
    intro links acc x kw hkw hx hc
    rw [List.foldl_cons]
    rcases List.mem_cons.mp hkw with hk | hks
    · subst hk
      exact subset_foldl_addKeywordMatches ks links _ x
        (mem_addKeywordMatches_of links acc kw x hx hc)
    · exact ih links _ x kw hks hx hc

theorem mem_keywordPass_iff (links : List String) (x : String) :
    x ∈ keywordPass links ↔ x ∈ links ∧ matchesKeyword x = true := by
  constructor
  · intro h
    rcases mem_foldl_addKeywordMatches priority_keywords links [] x h with hx | ⟨hl, kw, hkw, hc⟩
    · cases hx
    · exact ⟨hl, List.any_eq_true.mpr ⟨kw, hkw, hc⟩⟩
  · rintro ⟨hl, hm⟩
    rcases List.any_eq_true.mp hm with ⟨kw, hkw, hc⟩
    exact mem_foldl_addKeywordMatches_of priority_keywords links [] x kw hkw hl hc

theorem appendNew_spec : ∀ (xs init : List String),
    ∃ rest, appendNew init xs = init ++ rest
      ∧ (∀ x ∈ rest, x ∈ xs ∧ x ∉ init)
      ∧ rest.Sublist xs ∧ rest.Nodup := by
  intro xs
  induction xs with
  | nil =>
    intro init
    exact ⟨[], by simp [appendNew], by simp, List.Sublist.refl [], List.nodup_nil⟩
  | cons x ls ih =>
    intro init
    rw [show appendNew init (x :: ls) =
      appendNew (if init.contains x then init else init ++ [x]) ls from rfl]
    by_cases hc : init.contains x = true
    · rw [if_pos hc]
      rcases ih init with ⟨rest, heq, hmem, hsub, hnd⟩
      exact ⟨rest, heq, fun y hy => ⟨List.mem_cons_of_mem x (hmem y hy).1, (hmem y hy).2⟩,
        hsub.cons x, hnd⟩
    · rw [if_neg hc]
      rcases ih (init ++ [x]) with ⟨rest, heq, hmem, hsub, hnd⟩
      refine ⟨x :: rest, ?_, ?_, hsub.cons₂ x, ?_⟩
      · rw [heq, List.append_assoc]
        rfl
      · intro y hy
        rcases List.mem_cons.mp hy with hyx | hyr
        · subst hyx
          exact ⟨List.mem_cons_self y ls, fun hyi => hc (by simpa using hyi)⟩
        · rcases hmem y hyr with ⟨hyls, hyni⟩
          exact ⟨List.mem_cons_of_mem x hyls,
            fun hyi => hyni (List.mem_append_left _ hyi)⟩
      · rw [List.nodup_cons]
        refine ⟨fun hxr => ?_, hnd⟩
        exact (hmem x hxr).2 (List.mem_append_right _ (List.mem_singleton_self x))

theorem appendNew_nodup (init xs : List String) (hinit : init.Nodup) :
    (appendNew init xs).Nodup := by
  rcases appendNew_spec xs init with ⟨rest, heq, hmem, _, hnd⟩
  rw [heq]
  exact List.Nodup.append hinit hnd (fun a ha hb => (hmem a hb).2 ha)

theorem appendNew_length (init xs : List String) :
    (appendNew init xs).length ≤ init.length + xs.length := by
  rcases appendNew_spec xs init with ⟨rest, heq, _, hsub, _⟩
  rw [heq, List.length_append]
  exact Nat.add_le_add_left hsub.length_le _

theorem mem_prioritizeLinks (links : List String) (x : String)
    (h : x ∈ prioritizeLinks links) : x ∈ links := by
  rcases appendNew_spec links (keywordPass links) with ⟨rest, heq, hmem, _, _⟩
  rw [prioritizeLinks, heq] at h
  rcases List.mem_append.mp h with hk | hr
  · exact (mem_keywordPass_iff links x).mp hk |>.1
  · exact (hmem x hr).1

theorem discover_pages_nodup (domain : String) (links : List String) :
    (discover_pages domain links).Nodup :=
  appendNew_nodup [] _ List.nodup_nil

theorem mem_discover_pages (domain : String) (links : List String) (url : String)
    (h : url ∈ discover_pages domain links) :
    url = domain ∨ url ∈ prioritizeLinks (links.filter (fun u => is_valid_url u domain)) := by
  rcases appendNew_spec
      (domain :: (prioritizeLinks (links.filter (fun u => is_valid_url u domain))).take
        (Config.MAX_PAGES - 1)) [] with ⟨rest, heq, hmem, _, _⟩
  rw [discover_pages, heq] at h
  rcases List.mem_append.mp h with h0 | hr
  · cases h0
  · rcases List.mem_cons.mp (hmem url hr).1 with hd | ht
    · exact Or.inl hd
    · exact Or.inr (List.take_subset _ _ ht)

/-- C3 (amended): in the `prioritized` candidate list built by
`discover_pages` (before the seed is prepended and before the final
Python `list(set(...))` conversion, whose iteration order is
unspecified), every keyword-matching link precedes every non-matching
link; the non-matching group keeps first-seen order (it is a sublist of
the candidate list); the matching group is ordered keyword-major — by
the priority of the first matching keyword, not by first-seen position
(see the counterexample) — and the final crawl set never exceeds the
`MAX_PAGES` budget. -/
theorem discovery_priority_order (domain : String) (links : List String) :
    (∃ rest, prioritizeLinks links = keywordPass links ++ rest
      ∧ (∀ x ∈ keywordPass links, x ∈ links ∧ matchesKeyword x = true)
      ∧ (∀ x ∈ rest, x ∈ links ∧ matchesKeyword x = false)
      ∧ rest.Sublist links)
    ∧ (discover_pages domain links).length ≤ Config.MAX_PAGES := by
  constructor
  · rcases appendNew_spec links (keywordPass links) with ⟨rest, heq, hmem, hsub, _⟩
    refine ⟨rest, heq, fun x hx => (mem_keywordPass_iff links x).mp hx, ?_, hsub⟩
    intro x hx
    rcases hmem x hx with ⟨hxl, hxnk⟩
    refine ⟨hxl, ?_⟩
    rw [← Bool.not_eq_true]
    intro hmk
    exact hxnk ((mem_keywordPass_iff links x).mpr ⟨hxl, hmk⟩)
  · have h1 := appendNew_length []
      (domain :: (prioritizeLinks (links.filter (fun u => is_valid_url u domain))).take
        (Config.MAX_PAGES - 1))
    have h2 : ((prioritizeLinks (links.filter (fun u => is_valid_url u domain))).take
        (Config.MAX_PAGES - 1)).length ≤ Config.MAX_PAGES - 1 := by
      rw [List.length_take]
      exact Nat.min_le_left _ _
    rw [discover_pages]
    simp only [List.length_nil, List.length_cons, Nat.zero_add] at h1
    have : Config.MAX_PAGES = 25 := rfl
    omega

/-- Witness for C3 (amended) at a seed with one matching and one
non-matching candidate link. -/
theorem discovery_priority_order_witness :
    (∃ rest, prioritizeLinks ["https://e.com/about", "https://e.com/x"] =
        keywordPass ["https://e.com/about", "https://e.com/x"] ++ rest
      ∧ (∀ x ∈ keywordPass ["https://e.com/about", "https://e.com/x"],
          x ∈ ["https://e.com/about", "https://e.com/x"] ∧ matchesKeyword x = true)
      ∧ (∀ x ∈ rest, x ∈ ["https://e.com/about", "https://e.com/x"]
          ∧ matchesKeyword x = false)
      ∧ rest.Sublist ["https://e.com/about", "https://e.com/x"])
    ∧ (discover_pages "https://e.com" ["https://e.com/about", "https://e.com/x"]).length ≤
        Config.MAX_PAGES :=
  discovery_priority_order "https://e.com" ["https://e.com/about", "https://e.com/x"]

/-- C3 counterexample: with candidate links `[…/service, …/about]` (in
that first-seen order, both keyword-matching), `discover_pages` returns
the `about` link before the `service` link, because the keyword pass
iterates keywords (`about` ranks before `service` in
`priority_keywords`) rather than links — so the matching group is NOT in
first-seen order, refuting the claim as stated. -/
theorem discovery_order_counterexample :
    matchesKeyword "https://example.com/service" = true
    ∧ matchesKeyword "https://example.com/about" = true
    ∧ c3Links.indexOf "https://example.com/service" < c3Links.indexOf "https://example.com/about"
    ∧ discover_pages c3Seed c3Links =
        ["https://example.com", "https://example.com/about", "https://example.com/service"]
    ∧ ¬((discover_pages c3Seed c3Links).indexOf "https://example.com/service" ≤
        (discover_pages c3Seed c3Links).indexOf "https://example.com/about") := by
  decide

/-- C4 (amended): every URL in the crawl set other than the seed itself
was a candidate link accepted by `is_valid_url`, hence has the seed's
netloc and contains no deny-listed substring.  The seed is prepended
unconditionally and is exempt (see the counterexample). -/
theorem discovery_filter_sound (domain : String) (links : List String) (url : String)
    (hmem : url ∈ discover_pages domain links) (hne : url ≠ domain) :
    netloc url = netloc domain
    ∧ ∀ p ∈ skip_patterns, strContains (strLower url) p = false := by
  rcases mem_discover_pages domain links url hmem with hd | hp
  · exact absurd hd hne
  · have hv : url ∈ links.filter (fun u => is_valid_url u domain) :=
      mem_prioritizeLinks _ url hp
    have hval : is_valid_url url domain = true := (List.mem_filter.mp hv).2
    rw [is_valid_url, Bool.and_eq_true] at hval
    constructor
    · exact eq_of_beq hval.1
    · intro p hps
      have hany := hval.2
      rw [Bool.not_eq_true'] at hany
      rcases List.any_eq_false.mp hany p hps with hc
      rw [← Bool.not_eq_true]
      exact hc

/-- Witness for C4 (amended): a same-host candidate link is in the
crawl set and satisfies both properties. -/
theorem discovery_filter_sound_witness :
    netloc "https://e.com/team" = netloc "https://e.com"
    ∧ ∀ p ∈ skip_patterns, strContains (strLower "https://e.com/team") p = false :=
  discovery_filter_sound "https://e.com" ["https://e.com/team"] "https://e.com/team"
    (by decide) (by decide)

/-- C4 counterexample: the seed URL is put into the crawl set
unconditionally, so a seed whose own path contains a deny-listed
substring (`login`) yields a returned URL containing a deny-listed
substring, refuting the claim as stated for every returned URL. -/
theorem discovery_filter_counterexample :
    "https://example.com/login" ∈ discover_pages "https://example.com/login" []
    ∧ "login" ∈ skip_patterns
    ∧ strContains (strLower "https://example.com/login") "login" = true := by
  decide

/-! ### Sync-crawl classification lemmas -/

theorem lookupHash_setHash_ne (m : List (String × String)) (u h v : String) (hne : v ≠ u) :
    lookupHash (setHash m u h) v = lookupHash m v := by
  induction m with
  | nil =>
    show (if u = v then some h else lookupHash [] v) = none
    rw [if_neg (fun he => hne he.symm)]
    rfl
  | cons p ps ih =>
    show lookupHash (if p.1 = u then (u, h) :: ps else p :: setHash ps u h) v = _
    by_cases hp : p.1 = u
    · rw [if_pos hp]
      show (if u = v then some h else lookupHash ps v) =
        if p.1 = v then some p.2 else lookupHash ps v
      rw [if_neg (fun he => hne he.symm), if_neg (fun he => hne (hp.symm.trans he).symm)]
    · rw [if_neg hp]
      show (if p.1 = v then some p.2 else lookupHash (setHash ps u h) v) =
        if p.1 = v then some p.2 else lookupHash ps v
      split_ifs with hv
      · rfl
      · exact ih

theorem crawlStep_skip (env : String → FetchOutcome) (sync : Bool) (st : CrawlState)
    (url : String) (h : (env url).htmlLen < 100) : crawlStep env sync st url = st := by
  simp [crawlStep, h]

theorem crawlStep_short (env : String → FetchOutcome) (sync : Bool) (st : CrawlState)
    (url : String) (h1 : ¬(env url).htmlLen < 100) (h2 : ¬50 < (env url).wordCount) :
    crawlStep env sync st url = st := by
  simp [crawlStep, h1, h2]

theorem crawlStep_accept_new (env : String → FetchOutcome) (st : CrawlState) (url : String)
    (h1 : ¬(env url).htmlLen < 100) (h2 : 50 < (env url).wordCount)
    (h3 : lookupHash st.hashes url = none) :
    crawlStep env true st url =
      { pages := st.pages ++ [url], updated := st.updated, upNew := st.upNew ++ [url],
        hashes := setHash st.hashes url (env url).contentHash } := by
  simp [crawlStep, h1, h2, h3]

theorem crawlStep_accept_updated (env : String → FetchOutcome) (st : CrawlState) (url h : String)
    (h1 : ¬(env url).htmlLen < 100) (h2 : 50 < (env url).wordCount)
    (h3 : lookupHash st.hashes url = some h) (h4 : h ≠ (env url).contentHash) :
    crawlStep env true st url =
      { pages := st.pages ++ [url], updated := st.updated ++ [url], upNew := st.upNew,
        hashes := setHash st.hashes url (env url).contentHash } := by
  simp [crawlStep, h1, h2, h3, h4]

theorem crawlStep_accept_same (env : String → FetchOutcome) (st : CrawlState) (url h : String)
    (h1 : ¬(env url).htmlLen < 100) (h2 : 50 < (env url).wordCount)
    (h3 : lookupHash st.hashes url = some h) (h4 : h = (env url).contentHash) :
    crawlStep env true st url =
      { pages := st.pages ++ [url], updated := st.updated, upNew := st.upNew,
        hashes := setHash st.hashes url (env url).contentHash } := by
  simp [crawlStep, h1, h2, h3, h4]

/-- Loop invariant of the sync crawl: pages accepted so far are
correctly classified against the initial hash map `h0`, and the URLs
still to be crawled are untouched (not yet accepted, and their recorded
hash is still the initial one). -/
def SyncInv (h0 : List (String × String)) (env : String → FetchOutcome)
    (urls : List String) (st : CrawlState) : Prop :=
  (∀ url ∈ st.pages,
    (url ∈ st.upNew ↔ lookupHash h0 url = none)
    ∧ (url ∈ st.updated ↔
        ∃ h, lookupHash h0 url = some h ∧ h ≠ (env url).contentHash))
  ∧ ∀ u ∈ urls, u ∉ st.pages ∧ u ∉ st.upNew ∧ u ∉ st.updated
      ∧ lookupHash st.hashes u = lookupHash h0 u

theorem mem_append_singleton_iff (l : List String) (x y : String) (hne : y ≠ x) :
    y ∈ l ++ [x] ↔ y ∈ l := by
  simp [List.mem_append, hne]

theorem crawl_loop_classifies (h0 : List (String × String)) (env : String → FetchOutcome) :
    ∀ (urls : List String) (st : CrawlState), urls.Nodup → SyncInv h0 env urls st →
      SyncInv h0 env [] (urls.foldl (crawlStep env true) st) := by
  intro urls
  induction urls with
  | nil =>
    intro st _ hinv
    exact ⟨hinv.1, fun u hu => absurd hu (List.not_mem_nil u)⟩
  | cons u us ih =>
    intro st hnd hinv
    obtain ⟨hcls, hfresh⟩ := hinv
    obtain ⟨hu_pages, hu_new, hu_upd, hu_hash⟩ := hfresh u (List.mem_cons_self u us)
    obtain ⟨hu_not_us, hnd'⟩ := List.nodup_cons.mp hnd
    rw [List.foldl_cons]
    refine ih (crawlStep env true st u) hnd' ?_
    have hrest : ∀ v ∈ us, v ≠ u := fun v hv he => hu_not_us (he ▸ hv)
    by_cases hskip : (env u).htmlLen < 100
    · rw [crawlStep_skip env true st u hskip]
      exact ⟨hcls, fun v hv => hfresh v (List.mem_cons_of_mem u hv)⟩
    · by_cases hwc : 50 < (env u).wordCount
      · have hu0 : lookupHash st.hashes u = lookupHash h0 u := hu_hash
        cases hlk : lookupHash st.hashes u with
        | none =>
          have hlk0 : lookupHash h0 u = none := by rw [← hu0, hlk]
          rw [crawlStep_accept_new env st u hskip hwc hlk]
          constructor
          · intro url hurl
            by_cases hne : url = u
            · subst hne
              refine ⟨?_, ?_⟩
              · simp [List.mem_append, hlk0]
              · rw [hlk0]
                simp [hu_upd]
            · rw [mem_append_singleton_iff st.pages u url hne] at hurl
              have hold := hcls url hurl
              rw [mem_append_singleton_iff st.upNew u url hne]
              exact hold
          · intro v hv
            obtain ⟨hv1, hv2, hv3, hv4⟩ := hfresh v (List.mem_cons_of_mem u hv)
            have hvne := hrest v hv
            refine ⟨?_, ?_, hv3, ?_⟩
            · rw [mem_append_singleton_iff st.pages u v hvne]; exact hv1
            · rw [mem_append_singleton_iff st.upNew u v hvne]; exact hv2
            · rw [lookupHash_setHash_ne st.hashes u (env u).contentHash v hvne]; exact hv4
        | some h =>
          have hlk0 : lookupHash h0 u = some h := by rw [← hu0, hlk]
          by_cases hch : h ≠ (env u).contentHash
          · rw [crawlStep_accept_updated env st u h hskip hwc hlk hch]
            constructor
            · intro url hurl
              by_cases hne : url = u
              · subst hne
                refine ⟨?_, ?_⟩
                · rw [hlk0]
                  simp [hu_new]
                · simp only [List.mem_append, List.mem_singleton, or_true, true_iff]
                  exact ⟨h, hlk0, hch⟩
              · rw [mem_append_singleton_iff st.pages u url hne] at hurl
                have hold := hcls url hurl
                rw [mem_append_singleton_iff st.updated u url hne]
                exact hold
            · intro v hv
              obtain ⟨hv1, hv2, hv3, hv4⟩ := hfresh v (List.mem_cons_of_mem u hv)
              have hvne := hrest v hv
              refine ⟨?_, hv2, ?_, ?_⟩
              · rw [mem_append_singleton_iff st.pages u v hvne]; exact hv1
              · rw [mem_append_singleton_iff st.updated u v hvne]; exact hv3
              · rw [lookupHash_setHash_ne st.hashes u (env u).contentHash v hvne]; exact hv4
          · have hch2 : h = (env u).contentHash := not_not.mp hch
            rw [crawlStep_accept_same env st u h hskip hwc hlk hch2]
            constructor
            · intro url hurl
              by_cases hne : url = u
              · subst hne
                refine ⟨?_, ?_⟩
                · rw [hlk0]
                  simp [hu_new]
                · rw [hlk0]
                  constructor
                  · intro habs
                    exact absurd habs hu_upd
                  · rintro ⟨h2, he, hne2⟩
                    have h2h : h2 = h := (Option.some.inj he).symm
                    rw [h2h] at hne2
                    exact absurd hch2 hne2
              · rw [mem_append_singleton_iff st.pages u url hne] at hurl
                exact hcls url hurl
            · intro v hv
              obtain ⟨hv1, hv2, hv3, hv4⟩ := hfresh v (List.mem_cons_of_mem u hv)
              have hvne := hrest v hv
              refine ⟨?_, hv2, hv3, ?_⟩
              · rw [mem_append_singleton_iff st.pages u v hvne]; exact hv1
              · rw [lookupHash_setHash_ne st.hashes u (env u).contentHash v hvne]; exact hv4
      · rw [crawlStep_short env true st u hskip hwc]
        exact ⟨hcls, fun v hv => hfresh v (List.mem_cons_of_mem u hv)⟩

/-- C5: in a sync-mode crawl, every accepted page URL is classified as
new exactly when the crawler held no previously recorded hash for it,
and as updated exactly when its current content hash differs from the
previously recorded one; a URL whose hash matches the record appears in
neither list.  (Hinges on `discover_pages` returning duplicate-free
URLs, so a URL's classification always compares against the pre-crawl
hash map.) -/
theorem sync_crawl_classification (env : String → FetchOutcome) (domain : String)
    (links : List String) (hashes0 : List (String × String)) (url : String)
    (hurl : url ∈ (crawl_domain env domain links hashes0 true).pages) :
    (url ∈ (crawl_domain env domain links hashes0 true).upNew ↔
      lookupHash hashes0 url = none)
    ∧ (url ∈ (crawl_domain env domain links hashes0 true).updated ↔
        ∃ h, lookupHash hashes0 url = some h ∧ h ≠ (env url).contentHash) := by
  have hinv0 : SyncInv hashes0 env (discover_pages domain links)
      { pages := [], updated := [], upNew := [], hashes := hashes0 } := by
    constructor
    · intro u hu
      exact absurd hu (List.not_mem_nil u)
    · intro u _
      exact ⟨List.not_mem_nil u, List.not_mem_nil u, List.not_mem_nil u, rfl⟩
  have := crawl_loop_classifies hashes0 env (discover_pages domain links)
    { pages := [], updated := [], upNew := [], hashes := hashes0 }
    (discover_pages_nodup domain links) hinv0
  exact this.1 url hurl

/-- Witness for C5: a previously seen URL whose content hash changed is
classified as updated and not as new. -/
theorem sync_crawl_classification_witness :
    ("https://a.com" ∈ c5State.upNew ↔ lookupHash c5Hashes "https://a.com" = none)
    ∧ ("https://a.com" ∈ c5State.updated ↔
        ∃ h, lookupHash c5Hashes "https://a.com" = some h
          ∧ h ≠ (c5Env "https://a.com").contentHash) :=
  sync_crawl_classification c5Env "https://a.com" [] c5Hashes "https://a.com" (by decide)

/-! ### Specific-URL crawl lemmas -/

theorem isPrefixOf_append_self (l t : List Char) : l.isPrefixOf (l ++ t) = true := by
  induction l with
  | nil => simp [List.isPrefixOf]
  | cons c cs ih => simp [List.isPrefixOf, ih]

theorem withHttps_scheme (url : String) :
    strStartsWith (withHttps url) "http://" = true
    ∨ strStartsWith (withHttps url) "https://" = true := by
  rw [withHttps]
  split
  next hc => exact (by simpa using hc)
  next =>
    right
    rw [strStartsWith, str_data_append]
    exact isPrefixOf_append_self _ _

theorem specificStep_failed (env : String → FetchOutcome) (st : SpecificCrawl) (url : String)
    (h : (env (withHttps url)).htmlLen < 100) :
    specificStep env st url = { st with failed := st.failed ++ [withHttps url] } := by
  simp [specificStep, h]

theorem specificStep_page (env : String → FetchOutcome) (st : SpecificCrawl) (url : String)
    (h1 : ¬(env (withHttps url)).htmlLen < 100) (h2 : 50 < (env (withHttps url)).wordCount) :
    specificStep env st url = { st with pages := st.pages ++ [withHttps url] } := by
  simp [specificStep, h1, h2]

theorem specificStep_skip (env : String → FetchOutcome) (st : SpecificCrawl) (url : String)
    (h1 : ¬(env (withHttps url)).htmlLen < 100) (h2 : ¬50 < (env (withHttps url)).wordCount) :
    specificStep env st url = st := by
  simp [specificStep, h1, h2]

theorem specific_fold_spec (env : String → FetchOutcome) : ∀ (urls : List String)
    (st : SpecificCrawl) (u : String),
    (u ∈ (urls.foldl (specificStep env) st).failed ↔
      u ∈ st.failed ∨ ∃ url ∈ urls, u = withHttps url ∧ (env (withHttps url)).htmlLen < 100)
    ∧ (u ∈ (urls.foldl (specificStep env) st).pages ↔
      u ∈ st.pages ∨ ∃ url ∈ urls, u = withHttps url ∧ ¬(env (withHttps url)).htmlLen < 100
        ∧ 50 < (env (withHttps url)).wordCount) := by
  intro urls
  induction urls with
  | nil =>
    intro st u
    simp
  | cons url rest ih =>
    intro st u
    rw [List.foldl_cons]
    by_cases hfail : (env (withHttps url)).htmlLen < 100
    · rw [specificStep_failed env st url hfail]
      have := ih { st with failed := st.failed ++ [withHttps url] } u
      rw [this.1, this.2]
      constructor
      · simp only [List.mem_append, List.mem_cons, List.not_mem_nil, or_false]
        constructor
        · rintro ((hf | hu) | ⟨url2, h2, rest2⟩)
          · exact Or.inl hf
          · exact Or.inr ⟨url, Or.inl rfl, hu, hfail⟩
          · exact Or.inr ⟨url2, Or.inr h2, rest2⟩
        · rintro (hf | ⟨url2, (rfl | h2), heq, hlen⟩)
          · exact Or.inl (Or.inl hf)
          · exact Or.inl (Or.inr heq)
          · exact Or.inr ⟨url2, h2, heq, hlen⟩
      · simp only [List.mem_cons]
        constructor
        · rintro (hp | ⟨url2, h2, rest2⟩)
          · exact Or.inl hp
          · exact Or.inr ⟨url2, Or.inr h2, rest2⟩
        · rintro (hp | ⟨url2, (rfl | h2), heq, hlen, hwc⟩)
          · exact Or.inl hp
          · exact absurd hfail hlen
          · exact Or.inr ⟨url2, h2, heq, hlen, hwc⟩
    · by_cases hwc : 50 < (env (withHttps url)).wordCount
      · rw [specificStep_page env st url hfail hwc]
        have := ih { st with pages := st.pages ++ [withHttps url] } u
        rw [this.1, this.2]
        constructor
        · simp only [List.mem_cons]
          constructor
          · rintro (hf | ⟨url2, h2, rest2⟩)
            · exact Or.inl hf
            · exact Or.inr ⟨url2, Or.inr h2, rest2⟩
          · rintro (hf | ⟨url2, (rfl | h2), heq, hlen⟩)
            · exact Or.inl hf
            · exact absurd hlen hfail
            · exact Or.inr ⟨url2, h2, heq, hlen⟩
        · simp only [List.mem_append, List.mem_cons, List.not_mem_nil, or_false]
          constructor
          · rintro ((hp | hu) | ⟨url2, h2, rest2⟩)
            · exact Or.inl hp
            · exact Or.inr ⟨url, Or.inl rfl, hu, hfail, hwc⟩
            · exact Or.inr ⟨url2, Or.inr h2, rest2⟩
          · rintro (hp | ⟨url2, (rfl | h2), heq, hlen, hwc2⟩)
            · exact Or.inl (Or.inl hp)
            · exact Or.inl (Or.inr heq)
            · exact Or.inr ⟨url2, h2, heq, hlen, hwc2⟩
      · rw [specificStep_skip env st url hfail hwc]
        have := ih st u
        rw [this.1, this.2]
        constructor
        · simp only [List.mem_cons]
          constructor
          · rintro (hf | ⟨url2, h2, rest2⟩)
            · exact Or.inl hf
            · exact Or.inr ⟨url2, Or.inr h2, rest2⟩
          · rintro (hf | ⟨url2, (rfl | h2), heq, hlen⟩)
            · exact Or.inl hf
            · exact absurd hlen hfail
            · exact Or.inr ⟨url2, h2, heq, hlen⟩
        · simp only [List.mem_cons]
          constructor
          · rintro (hp | ⟨url2, h2, rest2⟩)
            · exact Or.inl hp
            · exact Or.inr ⟨url2, Or.inr h2, rest2⟩
          · rintro (hp | ⟨url2, (rfl | h2), heq, hlen, hwc2⟩)
            · exact Or.inl hp
            · exact absurd hwc2 hwc
            · exact Or.inr ⟨url2, h2, heq, hlen, hwc2⟩

/-- C7 (amended): in specific-URLs mode every URL is fetched with an
`https://` prefix when no scheme is present; a URL is recorded in
`failed_urls` exactly when its fetch yields empty/short HTML; an
accepted page always has usable HTML and more than 50 words; no URL is
in both lists; and a URL whose HTML is fine but whose extracted content
is 50 words or fewer lands in NEITHER list (silently skipped — the
claim's assertion that it reaches `failed_urls` is refuted by the
counterexample). -/
theorem specific_urls_error_handling (env : String → FetchOutcome) (urls : List String) :
    (∀ u ∈ (crawl_specific_urls env urls).failed,
      (strStartsWith u "http://" = true ∨ strStartsWith u "https://" = true)
      ∧ (env u).htmlLen < 100)
    ∧ (∀ u ∈ (crawl_specific_urls env urls).pages,
      (strStartsWith u "http://" = true ∨ strStartsWith u "https://" = true)
      ∧ ¬(env u).htmlLen < 100 ∧ 50 < (env u).wordCount)
    ∧ (∀ u ∈ (crawl_specific_urls env urls).pages, u ∉ (crawl_specific_urls env urls).failed)
    ∧ (∀ url ∈ urls,
      withHttps url ∈ (crawl_specific_urls env urls).pages
      ∨ withHttps url ∈ (crawl_specific_urls env urls).failed
      ∨ (¬(env (withHttps url)).htmlLen < 100 ∧ (env (withHttps url)).wordCount ≤ 50)) := by
  have hspec := specific_fold_spec env urls { pages := [], failed := [] }
  have hfail : ∀ u, u ∈ (crawl_specific_urls env urls).failed ↔
      ∃ url ∈ urls, u = withHttps url ∧ (env (withHttps url)).htmlLen < 100 := by
    intro u
    rw [show (crawl_specific_urls env urls).failed =
      (urls.foldl (specificStep env) { pages := [], failed := [] }).failed from rfl,
      (hspec u).1]
    simp
  have hpage : ∀ u, u ∈ (crawl_specific_urls env urls).pages ↔
      ∃ url ∈ urls, u = withHttps url ∧ ¬(env (withHttps url)).htmlLen < 100
        ∧ 50 < (env (withHttps url)).wordCount := by
    intro u
    rw [show (crawl_specific_urls env urls).pages =
      (urls.foldl (specificStep env) { pages := [], failed := [] }).pages from rfl,
      (hspec u).2]
    simp
  refine ⟨?_, ?_, ?_, ?_⟩
  · intro u hu
    rcases (hfail u).mp hu with ⟨url, _, rfl, hlen⟩
    exact ⟨withHttps_scheme url, hlen⟩
  · intro u hu
    rcases (hpage u).mp hu with ⟨url, _, rfl, hlen, hwc⟩
    exact ⟨withHttps_scheme url, hlen, hwc⟩
  · intro u hu hafail
    rcases (hpage u).mp hu with ⟨url, _, rfl, hlen, _⟩
    rcases (hfail (withHttps url)).mp hafail with ⟨url2, _, heq2, hlen2⟩
    rw [← heq2] at hlen2
    exact hlen hlen2
  · intro url hurl
    by_cases hlen : (env (withHttps url)).htmlLen < 100
    · exact Or.inr (Or.inl ((hfail (withHttps url)).mpr ⟨url, hurl, rfl, hlen⟩))
    · by_cases hwc : 50 < (env (withHttps url)).wordCount
      · exact Or.inl ((hpage (withHttps url)).mpr ⟨url, hurl, rfl, hlen, hwc⟩)
      · exact Or.inr (Or.inr ⟨hlen, by omega⟩)

/-- Witness for C7 (amended): a URL whose fetch fails everywhere is
accounted for by the trichotomy (here it lands in `failed_urls`). -/
theorem specific_urls_error_handling_witness :
    withHttps "x.com" ∈ (crawl_specific_urls czEnv ["x.com"]).pages
    ∨ withHttps "x.com" ∈ (crawl_specific_urls czEnv ["x.com"]).failed
    ∨ (¬(czEnv (withHttps "x.com")).htmlLen < 100
        ∧ (czEnv (withHttps "x.com")).wordCount ≤ 50) :=
  (specific_urls_error_handling czEnv ["x.com"]).2.2.2 "x.com" (by decide)

/-- C7 counterexample: under `c7Env` every fetch returns 200 bytes of
HTML whose extracted content has only 10 words.  The claim says such a
URL (unusable content) must be recorded in `failed_urls`; the code
skips it silently, so both `pages` and `failed_urls` stay empty. -/
theorem specific_urls_short_content_counterexample :
    withHttps "example.com" = "https://example.com"
    ∧ (c7Env "https://example.com").htmlLen = 200
    ∧ (c7Env "https://example.com").wordCount = 10
    ∧ (crawl_specific_urls c7Env ["example.com"]).pages = []
    ∧ (crawl_specific_urls c7Env ["example.com"]).failed = [] := by
  decide

/-- Witness for C10: a fresh analyze over a store holding an unrelated
collection leaves that other collection untouched. -/
theorem process_nonsync_replaces_witness :
    getCollection (process_domain_data c1NameOf [("other", [wRec])] c1DomainData false).1
        "other" = getCollection [("other", [wRec])] "other" :=
  (process_nonsync_replaces c1NameOf [("other", [wRec])] c1DomainData).2.2 "other" (by decide)

end DomChat
